import Mathlib

/-!
Verification development for the fog ingest service facade
(src/fog/ingest/server/src/ingest_service.rs) and the bip39 FFI wrappers
(src/libmobilecoin/src/bip39.rs).

The gRPC facade code under src/ is embedded faithfully.  The
IngestController, fog_uri::IngestPeerUri and fog_types::common::BlockRange
types live elsewhere in the repository and are modelled from the spec, as
marked on each definition.
-/

namespace Fog

/-- Lifecycle state of an ingest node.  Modelled from the spec: NodeState is
one of Idle, Active, Retiring with Idle initial. -/
inductive NodeState
  | idle
  | active
  | retiring
deriving DecidableEq, Repr

/-- Modelled from the spec: fog_types::common::BlockRange (not under src/),
a pair of block indices representing the half-open span [start_block, end_block). -/
structure BlockRange where
  start_block : Nat
  end_block : Nat
deriving DecidableEq, Repr

/-- Modelled from the spec: BlockRange validity is the invariant end > start. -/
def BlockRange.is_valid (r : BlockRange) : Bool := r.start_block < r.end_block

/-- Modelled from the spec: fog_uri::IngestPeerUri (not under src/), a peer
address validated against the addressing grammar scheme://host:port. -/
structure IngestPeerUri where
  scheme : List Char
  host : List Char
  port : Nat
deriving DecidableEq, Repr

/-- Splits a character list at every occurrence of the separator character,
keeping empty segments (the shape of a splitOn). -/
def splitOnChar (c : Char) : List Char → List (List Char)
  | [] => [[]]
  | x :: xs =>
    if x = c then [] :: splitOnChar c xs
    else
      match splitOnChar c xs with
      | [] => [[x]]
      | h :: t => (x :: h) :: t

/-- Converts a list of decimal digit characters to the number they denote. -/
def digitsToNat (l : List Char) : Nat :=
  l.foldl (fun acc c => 10 * acc + (c.toNat - 48)) 0

/-- Modelled from the spec: IngestPeerUri::from_str parses and validates a
peer address against the addressing grammar (scheme, host, port), e.g.
accepting "node://host1:443" and rejecting "not-a-valid-address". -/
def IngestPeerUri.from_str (s : String) : Option IngestPeerUri :=
  match splitOnChar ':' s.data with
  | [scheme, slashesHost, port] =>
    match slashesHost with
    | '/' :: '/' :: host =>
      if scheme ≠ [] ∧ host ≠ [] ∧ port ≠ [] ∧ port.all Char.isDigit then
        some ⟨scheme, host, digitsToNat port⟩
      else
        none
    | _ => none
  | _ => none

/-- Modelled from the spec: the Summary returned by every operation is a
read-only projection of the controller state: lifecycle state, current
ingress public key, pubkey expiry window, peer set and activation record. -/
structure IngestSummary where
  state : NodeState
  ingress_pubkey : Nat
  pubkey_expiry_window : Nat
  peers : List IngestPeerUri
  activation_record : Option Nat
deriving DecidableEq, Repr

/-- Modelled from the spec: the state owned by the IngestController (not
under src/) together with the persistence-held list of missed block ranges.
The ingress public key is modelled as a counter so that key rotation
produces a key distinct from the previous one, as the spec guarantees. -/
structure ControllerState where
  state : NodeState
  ingress_pubkey : Nat
  pubkey_expiry_window : Nat
  peers : List IngestPeerUri
  activation_record : Option Nat
  missed_ranges : List BlockRange
deriving DecidableEq, Repr

/-- Modelled from the spec: controller-level error for an operation whose
state precondition is violated. -/
inductive ControllerError
  | invalidStateTransition
deriving DecidableEq, Repr

namespace IngestController

/-- Modelled from the spec: get_ingest_summary is a pure read of the
in-memory state, never fails. -/
def get_ingest_summary (s : ControllerState) : IngestSummary :=
  ⟨s.state, s.ingress_pubkey, s.pubkey_expiry_window, s.peers, s.activation_record⟩

/-- Modelled from the spec: new_keys has precondition state == Idle; on
success requests a fresh keypair and replaces the stored public key, each
call producing a key distinct from the previous one. -/
def new_keys (s : ControllerState) : Except ControllerError ControllerState :=
  if s.state = NodeState.idle then
    Except.ok { s with ingress_pubkey := s.ingress_pubkey + 1 }
  else
    Except.error ControllerError.invalidStateTransition

/-- Modelled from the spec: set_pubkey_expiry_window has no state
precondition; it sets the window, persisted alongside the key. -/
def set_pubkey_expiry_window (s : ControllerState) (w : Nat) : ControllerState :=
  { s with pubkey_expiry_window := w }

/-- Modelled from the spec: set_peers atomically replaces the entire stored
peer set; it is infallible at the controller level (the facade calls it
without error handling). -/
def set_peers (s : ControllerState) (ps : List IngestPeerUri) : ControllerState :=
  { s with peers := ps }

/-- Modelled from the spec: activate has precondition state == Idle; on
success it records ActivationRecord = current_ledger_height and transitions
to Active. -/
def activate (s : ControllerState) (h : Nat) : Except ControllerError ControllerState :=
  if s.state = NodeState.idle then
    Except.ok { s with state := NodeState.active, activation_record := some h }
  else
    Except.error ControllerError.invalidStateTransition

/-- Modelled from the spec: retire has precondition state == Active, failing
as a precondition violation from Idle or Retiring; on success it transitions
to Retiring and returns the updated summary. -/
def retire (s : ControllerState) :
    Except ControllerError (IngestSummary × ControllerState) :=
  if s.state = NodeState.active then
    let s2 := { s with state := NodeState.retiring }
    Except.ok (get_ingest_summary s2, s2)
  else
    Except.error ControllerError.invalidStateTransition

/-- Modelled from the spec: report_missed_block_range appends the range to
durable storage via the persistence layer (persistence modelled available). -/
def report_missed_block_range (s : ControllerState) (r : BlockRange) : ControllerState :=
  { s with missed_ranges := s.missed_ranges ++ [r] }

/-- Modelled from the spec: get_missed_block_ranges returns all recorded
ranges, listed ascending by start per the persistence listing contract. -/
def get_missed_block_ranges (s : ControllerState) : List BlockRange :=
  List.insertionSort (fun a b => a.start_block ≤ b.start_block) s.missed_ranges

end IngestController

/-- Error classification applied by the facade via mc_util_grpc helpers:
rpc_invalid_arg_error, rpc_precondition_error and rpc_database_err (the
latter the Internal/Storage class).  The unavailable class is included as
the distinct class named by the spec for an unreadable ledger; the facade
never produces it. -/
inductive RpcErrorClass
  | invalidArgument
  | failedPrecondition
  | internalDb
  | unavailable
deriving DecidableEq, Repr

/-- Embeds get_status_impl: returns the controller summary, never fails and
never mutates state. -/
def get_status_impl (s : ControllerState) : Except RpcErrorClass IngestSummary :=
  Except.ok (IngestController.get_ingest_summary s)

/-- Embeds new_keys_impl: calls controller new_keys, mapping its error with
rpc_precondition_error, then returns the fresh summary. -/
def new_keys_impl (s : ControllerState) :
    Except RpcErrorClass IngestSummary × ControllerState :=
  match IngestController.new_keys s with
  | Except.error _ => (Except.error RpcErrorClass.failedPrecondition, s)
  | Except.ok s2 => (Except.ok (IngestController.get_ingest_summary s2), s2)

/-- Embeds set_pubkey_expiry_window_impl: sets the window on the controller
then returns the fresh summary. -/
def set_pubkey_expiry_window_impl (w : Nat) (s : ControllerState) :
    Except RpcErrorClass IngestSummary × ControllerState :=
  let s2 := IngestController.set_pubkey_expiry_window s w
  (Except.ok (IngestController.get_ingest_summary s2), s2)

/-- Parses every requested peer URI in order, failing on the first invalid
one: the collect over Results in set_peers_impl. -/
def parseAllPeers : List String → Option (List IngestPeerUri)
  | [] => some []
  | u :: us =>
    match IngestPeerUri.from_str u with
    | none => none
    | some p => (parseAllPeers us).map (fun ps => p :: ps)

/-- Embeds set_peers_impl: parses all requested URIs, mapping any parse
failure with rpc_invalid_arg_error before the controller is touched; on
success replaces the peer set and returns the fresh summary. -/
def set_peers_impl (uris : List String) (s : ControllerState) :
    Except RpcErrorClass IngestSummary × ControllerState :=
  match parseAllPeers uris with
  | none => (Except.error RpcErrorClass.invalidArgument, s)
  | some ps =>
    let s2 := IngestController.set_peers s ps
    (Except.ok (IngestController.get_ingest_summary s2), s2)

/-- Embeds activate_impl: first reads the ledger height, mapping a read
failure with rpc_database_err; then calls controller activate, mapping its
error with rpc_precondition_error; then returns the fresh summary. -/
def activate_impl (ledger : Except Unit Nat) (s : ControllerState) :
    Except RpcErrorClass IngestSummary × ControllerState :=
  match ledger with
  | Except.error _ => (Except.error RpcErrorClass.internalDb, s)
  | Except.ok h =>
    match IngestController.activate s h with
    | Except.error _ => (Except.error RpcErrorClass.failedPrecondition, s)
    | Except.ok s2 => (Except.ok (IngestController.get_ingest_summary s2), s2)

/-- Embeds retire_impl: calls controller retire and maps any error with
rpc_database_err, returning the summary produced by retire itself. -/
def retire_impl (s : ControllerState) :
    Except RpcErrorClass IngestSummary × ControllerState :=
  match IngestController.retire s with
  | Except.error _ => (Except.error RpcErrorClass.internalDb, s)
  | Except.ok (summary, s2) => (Except.ok summary, s2)

/-- Embeds report_missed_block_range_impl: builds the BlockRange, rejects an
invalid one with rpc_invalid_arg_error, otherwise appends it via the
controller and returns Empty. -/
def report_missed_block_range_impl (start_index end_index : Nat) (s : ControllerState) :
    Except RpcErrorClass Unit × ControllerState :=
  let block_range : BlockRange := ⟨start_index, end_index⟩
  if block_range.is_valid then
    (Except.ok (), IngestController.report_missed_block_range s block_range)
  else
    (Except.error RpcErrorClass.invalidArgument, s)

/-- Embeds get_missed_block_ranges_impl: returns all known ranges (the
proto conversion copies start_block and end_block unchanged). -/
def get_missed_block_ranges_impl (s : ControllerState) :
    Except RpcErrorClass (List BlockRange) :=
  Except.ok (IngestController.get_missed_block_ranges s)

/-- One request against the service facade; an activate request carries the
outcome of the ledger height read performed at call time. -/
inductive Op
  | getStatus
  | newKeys
  | setPubkeyExpiryWindow (w : Nat)
  | setPeers (uris : List String)
  | activate (ledger : Except Unit Nat)
  | retire
  | reportMissedBlockRange (start_index end_index : Nat)
  | getMissedBlockRanges
deriving Repr

/-- Result payload of one facade request. -/
inductive OpResult
  | summary (x : IngestSummary)
  | empty
  | ranges (l : List BlockRange)
deriving DecidableEq, Repr

/-- Dispatches one request to the corresponding facade implementation. -/
def applyOp (op : Op) (s : ControllerState) :
    Except RpcErrorClass OpResult × ControllerState :=
  match op with
  | Op.getStatus => ((get_status_impl s).map OpResult.summary, s)
  | Op.newKeys =>
    let r := new_keys_impl s
    (r.1.map OpResult.summary, r.2)
  | Op.setPubkeyExpiryWindow w =>
    let r := set_pubkey_expiry_window_impl w s
    (r.1.map OpResult.summary, r.2)
  | Op.setPeers uris =>
    let r := set_peers_impl uris s
    (r.1.map OpResult.summary, r.2)
  | Op.activate ledger =>
    let r := activate_impl ledger s
    (r.1.map OpResult.summary, r.2)
  | Op.retire =>
    let r := retire_impl s
    (r.1.map OpResult.summary, r.2)
  | Op.reportMissedBlockRange a b =>
    let r := report_missed_block_range_impl a b s
    (r.1.map (fun _ => OpResult.empty), r.2)
  | Op.getMissedBlockRanges => ((get_missed_block_ranges_impl s).map OpResult.ranges, s)

/-- State reached after serving a sequence of requests. -/
def applyOps (ops : List Op) (s : ControllerState) : ControllerState :=
  ops.foldl (fun st op => (applyOp op st).2) s

/-- Rank of a lifecycle state along the one-directional chain. -/
def stateRank : NodeState → Nat
  | NodeState.idle => 0
  | NodeState.active => 1
  | NodeState.retiring => 2

/-- Concrete controller state used by concrete witness instantiations. -/
def sampleState (ns : NodeState) : ControllerState := ⟨ns, 0, 0, [], none, []⟩

end Fog

namespace Bip39

/-!
Model of the bip39 crate used by src/libmobilecoin/src/bip39.rs: checksummed
entropy is serialized to 11-bit word indices into the English wordlist, and
parsing a phrase inverts that and re-verifies the checksum.  The SHA-256
checksum is implemented in full (FIPS 180-4).  The crate's English wordlist
is external data not present in the repository; it is modelled below by 2048
pairwise-distinct, nonempty, whitespace-free words, which are the only
properties of the wordlist the functions rely on.
-/

/-- Bits of a number, most significant first, in a fixed width. -/
def natToBits : Nat → Nat → List Bool
  | 0, _ => []
  | w + 1, n => natToBits w (n / 2) ++ [decide (n % 2 = 1)]

/-- Number denoted by a list of bits, most significant first. -/
def bitsToNat (bs : List Bool) : Nat :=
  bs.foldl (fun acc b => 2 * acc + (if b then 1 else 0)) 0

/-- Splits a list into consecutive chunks of k+1 elements each (the last
chunk shorter if the length is not a multiple). -/
def chunks (k : Nat) : List α → List (List α)
  | [] => []
  | x :: xs => (x :: xs.take k) :: chunks k (xs.drop k)
termination_by l => l.length
decreasing_by
  simp only [List.length_drop, List.length_cons]
  omega

/-- Serializes bytes to bits, most significant bit of each byte first. -/
def bytesToBits (bs : List Nat) : List Bool :=
  (bs.map (natToBits 8)).flatten

/-- Deserializes bits (grouped in eights) back to bytes. -/
def bitsToBytes (bits : List Bool) : List Nat :=
  (chunks 7 bits).map bitsToNat

/-- The sixty-four SHA-256 round constants of FIPS 180-4. -/
def shaK : List Nat := [
    1116352408, 1899447441, 3049323471, 3921009573, 961987163,
    1508970993, 2453635748, 2870763221, 3624381080, 310598401,
    607225278, 1426881987, 1925078388, 2162078206, 2614888103,
    3248222580, 3835390401, 4022224774, 264347078, 604807628,
    770255983, 1249150122, 1555081692, 1996064986, 2554220882,
    2821834349, 2952996808, 3210313671, 3336571891, 3584528711,
    113926993, 338241895, 666307205, 773529912, 1294757372,
    1396182291, 1695183700, 1986661051, 2177026350, 2456956037,
    2730485921, 2820302411, 3259730800, 3345764771, 3516065817,
    3600352804, 4094571909, 275423344, 430227734, 506948616,
    659060556, 883997877, 958139571, 1322822218, 1537002063,
    1747873779, 1955562222, 2024104815, 2227730452, 2361852424,
    2428436474, 2756734187, 3204031479, 3329325298]

/-- Reduction of a number to a 32-bit word. -/
def u32 (n : Nat) : Nat := n % 4294967296

/-- Right rotation of a 32-bit word by n places. -/
def rotr32 (n x : Nat) : Nat := x / 2 ^ n + x % 2 ^ n * 2 ^ (32 - n)

/-- Bitwise complement within 32 bits. -/
def not32 (x : Nat) : Nat := x ^^^ 4294967295

/-- Choice function of FIPS 180-4. -/
def shaCh (x y z : Nat) : Nat := (x &&& y) ^^^ (not32 x &&& z)

/-- Majority function of FIPS 180-4. -/
def shaMaj (x y z : Nat) : Nat := (x &&& y) ^^^ (x &&& z) ^^^ (y &&& z)

/-- Big sigma 0 of FIPS 180-4. -/
def bsig0 (x : Nat) : Nat := rotr32 2 x ^^^ rotr32 13 x ^^^ rotr32 22 x

/-- Big sigma 1 of FIPS 180-4. -/
def bsig1 (x : Nat) : Nat := rotr32 6 x ^^^ rotr32 11 x ^^^ rotr32 25 x

/-- Small sigma 0 of FIPS 180-4. -/
def ssig0 (x : Nat) : Nat := rotr32 7 x ^^^ rotr32 18 x ^^^ x / 2 ^ 3

/-- Small sigma 1 of FIPS 180-4. -/
def ssig1 (x : Nat) : Nat := rotr32 17 x ^^^ rotr32 19 x ^^^ x / 2 ^ 10

/-- Working state of the SHA-256 compression function. -/
structure Sha256State where
  a : Nat
  b : Nat
  c : Nat
  d : Nat
  e : Nat
  f : Nat
  g : Nat
  h : Nat
deriving DecidableEq, Repr

/-- Initial SHA-256 hash value. -/
def shaInit : Sha256State :=
  ⟨1779033703, 3144134277, 1013904242, 2773480762,
   1359893119, 2600822924, 528734635, 1541459225⟩

/-- One round of the SHA-256 compression function. -/
def shaRound (st : Sha256State) (kw : Nat × Nat) : Sha256State :=
  let t1 := u32 (st.h + bsig1 st.e + shaCh st.e st.f st.g + kw.1 + kw.2)
  let t2 := u32 (bsig0 st.a + shaMaj st.a st.b st.c)
  ⟨u32 (t1 + t2), st.a, st.b, st.c, u32 (st.d + t1), st.e, st.f, st.g⟩

/-- Big-endian word denoted by a byte chunk. -/
def wordOfBytes (bs : List Nat) : Nat :=
  bs.foldl (fun acc b => 256 * acc + b) 0

/-- Extends the sixteen message-schedule words to sixty-four. -/
def extendSchedule : List Nat → Nat → List Nat
  | ws, 0 => ws
  | ws, fuel + 1 =>
    let n := ws.length
    let w := u32 (ssig1 (ws.getD (n - 2) 0) + ws.getD (n - 7) 0 +
      ssig0 (ws.getD (n - 15) 0) + ws.getD (n - 16) 0)
    extendSchedule (ws ++ [w]) fuel

/-- Processes one 64-byte block into the running hash value. -/
def shaBlock (st : Sha256State) (block : List Nat) : Sha256State :=
  let ws := extendSchedule ((chunks 3 block).map wordOfBytes) 48
  let r := (shaK.zip ws).foldl shaRound st
  ⟨u32 (st.a + r.a), u32 (st.b + r.b), u32 (st.c + r.c), u32 (st.d + r.d),
   u32 (st.e + r.e), u32 (st.f + r.f), u32 (st.g + r.g), u32 (st.h + r.h)⟩

/-- Big-endian fixed-width byte serialization of a number. -/
def natToBytesBE : Nat → Nat → List Nat
  | 0, _ => []
  | w + 1, n => natToBytesBE w (n / 256) ++ [n % 256]

/-- SHA-256 padding: a 0x80 byte, zeros, then the 64-bit big-endian bit
length, reaching a multiple of 64 bytes. -/
def shaPad (msg : List Nat) : List Nat :=
  msg ++ 128 :: List.replicate ((64 - (msg.length + 9) % 64) % 64) 0 ++
    natToBytesBE 8 (8 * msg.length)

/-- Big-endian bytes of the final hash value. -/
def shaDigest (st : Sha256State) : List Nat :=
  natToBytesBE 4 st.a ++ natToBytesBE 4 st.b ++ natToBytesBE 4 st.c ++
    natToBytesBE 4 st.d ++ natToBytesBE 4 st.e ++ natToBytesBE 4 st.f ++
    natToBytesBE 4 st.g ++ natToBytesBE 4 st.h

/-- SHA-256 of a byte string (FIPS 180-4). -/
def sha256 (msg : List Nat) : List Nat :=
  shaDigest ((chunks 63 (shaPad msg)).foldl shaBlock shaInit)

/-- Letter used at one base-8 digit position of a modelled wordlist word. -/
def wordChar (d : Nat) : Char := Char.ofNat (97 + d % 8)

/-- Modelled wordlist word for an index below 2048: four letters encoding
the index in base 8, so distinct indices give distinct words and every word
is nonempty and free of whitespace. -/
def wordOfIndex (i : Nat) : List Char :=
  [wordChar (i / 512), wordChar (i / 64), wordChar (i / 8), wordChar i]

/-- Model of the crate's English wordlist: 2048 pairwise-distinct, nonempty,
whitespace-free words (the concrete spellings of the external wordlist data
are immaterial to the functions modelled here). -/
def wordlist : List (List Char) := (List.range 2048).map wordOfIndex

/-- Index of a word in a wordlist, as the crate's word-to-index map. -/
def lookupWord (w : List Char) : List (List Char) → Option Nat
  | [] => none
  | x :: xs => if x = w then some 0 else (lookupWord w xs).map (· + 1)

/-- Checksum bit count for a valid entropy byte length: the crate's
MnemonicType::for_key_size accepts 128, 160, 192, 224 or 256 bits of
entropy, with one checksum bit per 32 entropy bits. -/
def checksumBitsForLen (len : Nat) : Option Nat :=
  match len with
  | 16 => some 4
  | 20 => some 5
  | 24 => some 6
  | 28 => some 7
  | 32 => some 8
  | _ => none

/-- Entropy and checksum bit counts for a word count: the crate's
MnemonicType::for_word_count accepts 12, 15, 18, 21 or 24 words. -/
def typeForWordCount (w : Nat) : Option (Nat × Nat) :=
  match w with
  | 12 => some (128, 4)
  | 15 => some (160, 5)
  | 18 => some (192, 6)
  | 21 => some (224, 7)
  | 24 => some (256, 8)
  | _ => none

/-- Words of a mnemonic built from entropy, as the crate's
Mnemonic::from_entropy: entropy bits followed by the leading checksum bits
of the SHA-256 of the entropy, cut into 11-bit indices into the wordlist;
errors (none) exactly when the entropy length is invalid. -/
def mnemonicWords (entropy : List Nat) : Option (List (List Char)) :=
  match checksumBitsForLen entropy.length with
  | none => none
  | some cs =>
    let bits := bytesToBits entropy ++ (bytesToBits (sha256 entropy)).take cs
    some ((chunks 10 bits).map (fun c => wordlist.getD (bitsToNat c) []))

/-- Joins words with single spaces, as the crate renders a phrase. -/
def joinWords : List (List Char) → List Char
  | [] => []
  | [w] => w
  | w :: ws => w ++ ' ' :: joinWords ws

/-- Splits a phrase at whitespace runs, as the crate's phrase parsing. -/
def splitWS : List Char → List (List Char)
  | [] => []
  | c :: cs =>
    if c = ' ' then splitWS cs
    else (c :: cs.takeWhile (fun x => ¬ x = ' ')) ::
      splitWS (cs.dropWhile (fun x => ¬ x = ' '))
termination_by l => l.length
decreasing_by
  all_goals simp only [List.length_cons]
  all_goals first
    | omega
    | exact Nat.lt_succ_of_le (List.Sublist.length_le (List.dropWhile_sublist _))

/-- Looks every word of a phrase up in the wordlist, failing on the first
unknown word. -/
def lookupIndices : List (List Char) → Option (List Nat)
  | [] => some []
  | w :: ws =>
    match lookupWord w wordlist with
    | none => none
    | some i => (lookupIndices ws).map (fun is => i :: is)

/-- Entropy recovered from the words of a phrase, as the crate's
Mnemonic::from_phrase: word count fixes the entropy and checksum widths,
words map back to 11-bit indices, and the checksum is re-verified against
the SHA-256 of the recovered entropy. -/
def entropyFromWords (ws : List (List Char)) : Except Unit (List Nat) :=
  match typeForWordCount ws.length with
  | none => Except.error ()
  | some (entBits, csBits) =>
    match lookupIndices ws with
    | none => Except.error ()
    | some is =>
      let bits := (is.map (natToBits 11)).flatten
      let entropy := bitsToBytes (bits.take entBits)
      if (bytesToBits (sha256 entropy)).take csBits = bits.drop entBits then
        Except.ok entropy
      else
        Except.error ()

/-- Embeds mc_bip39_entropy_to_mnemonic: renders the mnemonic of the given
entropy as a string (the FFI wrapper expects the conversion to succeed,
which its documented length precondition guarantees). -/
def mc_bip39_entropy_to_mnemonic (entropy : List Nat) : Option String :=
  (mnemonicWords entropy).map (fun ws => String.mk (joinWords ws))

/-- Embeds mc_bip39_entropy_from_mnemonic: parses the mnemonic string,
writes the recovered entropy to the out buffer and returns its length; an
invalid mnemonic is an InvalidInput error. -/
def mc_bip39_entropy_from_mnemonic (mnemonic : String) :
    Except Unit (List Nat × Nat) :=
  match entropyFromWords (splitWS mnemonic.data) with
  | Except.error e => Except.error e
  | Except.ok entropy => Except.ok (entropy, entropy.length)

end Bip39

namespace Fog

lemma applyOp_state_mono (op : Op) (s : ControllerState) :
    stateRank s.state ≤ stateRank ((applyOp op s).2).state := by
  cases op with
  | getStatus => simp [applyOp]
  | newKeys =>
    simp only [applyOp, new_keys_impl, IngestController.new_keys]
    by_cases h : s.state = NodeState.idle <;> simp [h]
  | setPubkeyExpiryWindow w =>
    simp [applyOp, set_pubkey_expiry_window_impl, IngestController.set_pubkey_expiry_window]
  | setPeers uris =>
    simp only [applyOp, set_peers_impl]
    cases parseAllPeers uris <;> simp [IngestController.set_peers]
  | activate ledger =>
    simp only [applyOp, activate_impl]
    cases ledger with
    | error e => simp
    | ok h =>
      simp only [IngestController.activate]
      by_cases hs : s.state = NodeState.idle <;> simp [hs, stateRank]
  | retire =>
    simp only [applyOp, retire_impl, IngestController.retire]
    by_cases hs : s.state = NodeState.active <;> simp [hs, stateRank]
  | reportMissedBlockRange a b =>
    simp only [applyOp, report_missed_block_range_impl]
    by_cases hv : (BlockRange.mk a b).is_valid <;>
      simp [hv, IngestController.report_missed_block_range]
  | getMissedBlockRanges => simp [applyOp]

lemma applyOps_state_mono (ops : List Op) (s : ControllerState) :
    stateRank s.state ≤ stateRank ((applyOps ops s)).state := by
  induction ops generalizing s with
  | nil => simp [applyOps]
  | cons op ops ih =>
    calc stateRank s.state ≤ stateRank ((applyOp op s).2).state := applyOp_state_mono op s
      _ ≤ stateRank ((applyOps ops (applyOp op s).2)).state := ih _
      _ = stateRank ((applyOps (op :: ops) s)).state := by simp [applyOps]

lemma retiring_of_rank_ge {ns : NodeState} (h : 2 ≤ stateRank ns) :
    ns = NodeState.retiring := by
  cases ns <;> simp_all [stateRank]

lemma rank_zero_iff {ns : NodeState} : stateRank ns = 0 ↔ ns = NodeState.idle := by
  cases ns <;> simp [stateRank]

/-- Claim C1: from Idle, a first Activate succeeds, transitioning to Active,
recording the ledger height read at call time as the activation record and
returning the post-mutation summary; a second Activate fails
FailedPrecondition, and the summary observable after the second call equals
the summary returned by the first. -/
theorem activate_twice_first_succeeds_second_fails
    (s : ControllerState) (h1 h2 : Nat) (hs : s.state = NodeState.idle) :
    (activate_impl (Except.ok h1) s).1 =
      Except.ok (IngestController.get_ingest_summary (activate_impl (Except.ok h1) s).2) ∧
    (activate_impl (Except.ok h1) s).2.state = NodeState.active ∧
    (activate_impl (Except.ok h1) s).2.activation_record = some h1 ∧
    activate_impl (Except.ok h2) (activate_impl (Except.ok h1) s).2 =
      (Except.error RpcErrorClass.failedPrecondition, (activate_impl (Except.ok h1) s).2) ∧
    get_status_impl (activate_impl (Except.ok h2) (activate_impl (Except.ok h1) s).2).2 =
      Except.ok (IngestController.get_ingest_summary (activate_impl (Except.ok h1) s).2) := by
  simp [activate_impl, IngestController.activate, hs, get_status_impl]

theorem activate_twice_witness :
    (activate_impl (Except.ok 100) (sampleState NodeState.idle)).1 =
      Except.ok (IngestController.get_ingest_summary
        (activate_impl (Except.ok 100) (sampleState NodeState.idle)).2) ∧
    (activate_impl (Except.ok 100) (sampleState NodeState.idle)).2.state = NodeState.active ∧
    (activate_impl (Except.ok 100) (sampleState NodeState.idle)).2.activation_record = some 100 ∧
    activate_impl (Except.ok 105) (activate_impl (Except.ok 100) (sampleState NodeState.idle)).2 =
      (Except.error RpcErrorClass.failedPrecondition,
        (activate_impl (Except.ok 100) (sampleState NodeState.idle)).2) ∧
    get_status_impl (activate_impl (Except.ok 105)
        (activate_impl (Except.ok 100) (sampleState NodeState.idle)).2).2 =
      Except.ok (IngestController.get_ingest_summary
        (activate_impl (Except.ok 100) (sampleState NodeState.idle)).2) :=
  activate_twice_first_succeeds_second_fails (sampleState NodeState.idle) 100 105 (by rfl)


/-- Claim C2 counterexample: Retire from Idle does fail, but the facade
wraps the controller error with rpc_database_err, so the reported error
class is the Internal/database one, not FailedPrecondition. -/
theorem retire_from_idle_reports_database_error :
    retire_impl (sampleState NodeState.idle) =
      (Except.error RpcErrorClass.internalDb, sampleState NodeState.idle) ∧
    RpcErrorClass.internalDb ≠ RpcErrorClass.failedPrecondition :=
  ⟨rfl, by decide⟩

/-- Claim C2 as amended: from every state that is not Active, Retire fails
with the Internal/database error classification (retire_impl maps every
controller error with rpc_database_err) and leaves the state unchanged;
from Active it succeeds, transitioning to Retiring. -/
theorem retire_precondition_behaviour (s : ControllerState) :
    (s.state ≠ NodeState.active →
      retire_impl s = (Except.error RpcErrorClass.internalDb, s)) ∧
    (s.state = NodeState.active →
      retire_impl s = (Except.ok (IngestController.get_ingest_summary
          { s with state := NodeState.retiring }), { s with state := NodeState.retiring }) ∧
      (retire_impl s).2.state = NodeState.retiring) := by
  constructor
  · intro h
    simp [retire_impl, IngestController.retire, h]
  · intro h
    simp [retire_impl, IngestController.retire, h]

theorem retire_precondition_behaviour_witness :
    retire_impl (sampleState NodeState.idle) =
      (Except.error RpcErrorClass.internalDb, sampleState NodeState.idle) ∧
    (retire_impl (sampleState NodeState.active) =
      (Except.ok (IngestController.get_ingest_summary
          { sampleState NodeState.active with state := NodeState.retiring }),
        { sampleState NodeState.active with state := NodeState.retiring }) ∧
      (retire_impl (sampleState NodeState.active)).2.state = NodeState.retiring) :=
  ⟨(retire_precondition_behaviour (sampleState NodeState.idle)).1 (by decide),
   (retire_precondition_behaviour (sampleState NodeState.active)).2 (by rfl)⟩

/-- Claim C3: the lifecycle never returns to Idle from Active or Retiring
under any sequence of operations, and after a successful Retire every
subsequent Activate (whose ledger read yields a height) fails
FailedPrecondition. -/
theorem lifecycle_one_directional (s : ControllerState) (ops : List Op) (h : Nat) :
    (s.state ≠ NodeState.idle → (applyOps ops s).state ≠ NodeState.idle) ∧
    (∀ sum, (retire_impl s).1 = Except.ok sum →
      (activate_impl (Except.ok h) (applyOps ops (retire_impl s).2)).1 =
        Except.error RpcErrorClass.failedPrecondition) := by
  constructor
  · intro hne hidle
    have hmono := applyOps_state_mono ops s
    rw [hidle] at hmono
    simp only [stateRank, Nat.le_zero] at hmono
    exact hne (rank_zero_iff.mp hmono)
  · intro sum hok
    have hact : s.state = NodeState.active := by
      by_contra hne
      simp [retire_impl, IngestController.retire, hne] at hok
    have h2 : (retire_impl s).2.state = NodeState.retiring := by
      simp [retire_impl, IngestController.retire, hact]
    have hmono := applyOps_state_mono ops (retire_impl s).2
    rw [h2] at hmono
    have hret : (applyOps ops (retire_impl s).2).state = NodeState.retiring :=
      retiring_of_rank_ge hmono
    simp [activate_impl, IngestController.activate, hret]

theorem lifecycle_one_directional_witness :
    ((applyOps [Op.newKeys, Op.retire] (sampleState NodeState.active)).state ≠ NodeState.idle) ∧
    (activate_impl (Except.ok 7)
        (applyOps [Op.newKeys, Op.retire] (retire_impl (sampleState NodeState.active)).2)).1 =
      Except.error RpcErrorClass.failedPrecondition :=
  ⟨(lifecycle_one_directional (sampleState NodeState.active) [Op.newKeys, Op.retire] 7).1
      (by decide),
   (lifecycle_one_directional (sampleState NodeState.active) [Op.newKeys, Op.retire] 7).2
      (IngestController.get_ingest_summary
        { sampleState NodeState.active with state := NodeState.retiring }) (by rfl)⟩

/-- Claim C4: ReportMissedBlockRange rejects every empty or inverted range
with InvalidArgument and appends nothing; a proper range succeeds and a
subsequent GetMissedBlockRanges includes it. -/
theorem missed_block_range_validation (s : ControllerState) (a b : Nat) :
    (b ≤ a →
      report_missed_block_range_impl a b s = (Except.error RpcErrorClass.invalidArgument, s)) ∧
    (a < b →
      (report_missed_block_range_impl a b s).1 = Except.ok () ∧
      ∃ l, get_missed_block_ranges_impl (report_missed_block_range_impl a b s).2 =
          Except.ok l ∧ BlockRange.mk a b ∈ l) := by
  constructor
  · intro hba
    simp [report_missed_block_range_impl, BlockRange.is_valid, Nat.not_lt.mpr hba]
  · intro hab
    constructor
    · simp [report_missed_block_range_impl, BlockRange.is_valid, hab]
    · refine ⟨IngestController.get_missed_block_ranges
        (report_missed_block_range_impl a b s).2, rfl, ?_⟩
      simp [report_missed_block_range_impl, BlockRange.is_valid, hab,
        IngestController.report_missed_block_range,
        IngestController.get_missed_block_ranges]

theorem missed_block_range_validation_witness :
    (report_missed_block_range_impl 5 5 (sampleState NodeState.idle) =
      (Except.error RpcErrorClass.invalidArgument, sampleState NodeState.idle)) ∧
    ((report_missed_block_range_impl 5 10 (sampleState NodeState.idle)).1 = Except.ok () ∧
      ∃ l, get_missed_block_ranges_impl
          (report_missed_block_range_impl 5 10 (sampleState NodeState.idle)).2 =
          Except.ok l ∧ BlockRange.mk 5 10 ∈ l) :=
  ⟨(missed_block_range_validation (sampleState NodeState.idle) 5 5).1 (by decide),
   (missed_block_range_validation (sampleState NodeState.idle) 5 10).2 (by decide)⟩

lemma parseAllPeers_eq_none_iff (uris : List String) :
    parseAllPeers uris = none ↔ ∃ u ∈ uris, IngestPeerUri.from_str u = none := by
  induction uris with
  | nil => simp [parseAllPeers]
  | cons u us ih =>
    cases hu : IngestPeerUri.from_str u with
    | none =>
      simp only [parseAllPeers, hu]
      exact ⟨fun _ => ⟨u, by simp, hu⟩, fun _ => trivial⟩
    | some p =>
      have heq : parseAllPeers (u :: us) =
          (parseAllPeers us).map (fun ps => p :: ps) := by
        simp [parseAllPeers, hu]
      rw [heq]
      cases hus : parseAllPeers us with
      | none =>
        rcases ih.mp hus with ⟨x, hx, hxn⟩
        exact ⟨fun _ => ⟨x, List.mem_cons_of_mem u hx, hxn⟩, fun _ => rfl⟩
      | some ps =>
        constructor
        · intro hcontra
          exact Option.noConfusion hcontra
        · rintro ⟨x, hx, hxn⟩
          rcases List.mem_cons.mp hx with rfl | hxs
          · rw [hu] at hxn
            exact Option.noConfusion hxn
          · have h2 : parseAllPeers us = none := ih.mpr ⟨x, hxs, hxn⟩
            rw [h2] at hus
            exact Option.noConfusion hus

/-- Claim C5: SetPeers fails with InvalidArgument and leaves the stored
peer set untouched when any entry fails to parse, and on success replaces
the stored peer set by exactly the parsed request list. -/
theorem set_peers_atomic_replace (s : ControllerState) (uris : List String) :
    ((∃ u ∈ uris, IngestPeerUri.from_str u = none) →
      set_peers_impl uris s = (Except.error RpcErrorClass.invalidArgument, s)) ∧
    (∀ ps, parseAllPeers uris = some ps →
      set_peers_impl uris s =
        (Except.ok (IngestController.get_ingest_summary { s with peers := ps }),
          { s with peers := ps })) := by
  constructor
  · intro hbad
    have := (parseAllPeers_eq_none_iff uris).mpr hbad
    simp [set_peers_impl, this]
  · intro ps hps
    simp [set_peers_impl, hps, IngestController.set_peers]

theorem set_peers_atomic_replace_witness :
    (set_peers_impl ["not-a-valid-address"] (sampleState NodeState.idle) =
      (Except.error RpcErrorClass.invalidArgument, sampleState NodeState.idle)) ∧
    (set_peers_impl ["node://host1:443"] (sampleState NodeState.idle) =
      (Except.ok (IngestController.get_ingest_summary
        { sampleState NodeState.idle with
            peers := [⟨['n','o','d','e'], ['h','o','s','t','1'], 443⟩] }),
        { sampleState NodeState.idle with
            peers := [⟨['n','o','d','e'], ['h','o','s','t','1'], 443⟩] })) :=
  ⟨(set_peers_atomic_replace (sampleState NodeState.idle) ["not-a-valid-address"]).1
      ⟨"not-a-valid-address", by simp, by decide⟩,
   (set_peers_atomic_replace (sampleState NodeState.idle) ["node://host1:443"]).2
      [⟨['n','o','d','e'], ['h','o','s','t','1'], 443⟩] (by decide)⟩

/-- Claim C6 counterexample: when the ledger height cannot be read,
Activate fails with the same Internal/database classification used for
persistence failures (activate_impl maps the read failure with
rpc_database_err), not with a distinct Unavailable class. -/
theorem activate_ledger_error_not_unavailable :
    activate_impl (Except.error ()) (sampleState NodeState.idle) =
      (Except.error RpcErrorClass.internalDb, sampleState NodeState.idle) ∧
    RpcErrorClass.internalDb ≠ RpcErrorClass.unavailable :=
  ⟨rfl, by decide⟩

/-- Claim C6 as amended: whenever Activate is called and the ledger height
cannot be read, the call fails with the Internal/database error class (the
same classification as persistence failures) and the state is unchanged. -/
theorem activate_ledger_error_database_class (s : ControllerState) :
    activate_impl (Except.error ()) s = (Except.error RpcErrorClass.internalDb, s) := rfl

/-- Claim C9: activate_impl reads the ledger before the Idle precondition
is checked: a failed ledger read returns the database error and leaves the
controller untouched even when the node is not Idle and the precondition
check would also have failed. -/
theorem ledger_read_precedes_precondition_check (s : ControllerState)
    (_hs : s.state ≠ NodeState.idle) :
    activate_impl (Except.error ()) s = (Except.error RpcErrorClass.internalDb, s) := rfl

theorem ledger_read_precedes_precondition_check_witness :
    activate_impl (Except.error ()) (sampleState NodeState.active) =
      (Except.error RpcErrorClass.internalDb, sampleState NodeState.active) :=
  ledger_read_precedes_precondition_check (sampleState NodeState.active) (by decide)

/-- Claim C7: NewKeys outside Idle fails FailedPrecondition leaving the
state (hence the stored key) unchanged; from Idle, two successive NewKeys
calls succeed and report two distinct public keys. -/
theorem new_keys_precondition_and_freshness (s : ControllerState) :
    (s.state ≠ NodeState.idle →
      new_keys_impl s = (Except.error RpcErrorClass.failedPrecondition, s)) ∧
    (s.state = NodeState.idle →
      ∃ sum1 sum2,
        (new_keys_impl s).1 = Except.ok sum1 ∧
        (new_keys_impl (new_keys_impl s).2).1 = Except.ok sum2 ∧
        sum1.ingress_pubkey ≠ sum2.ingress_pubkey) := by
  constructor
  · intro h
    simp [new_keys_impl, IngestController.new_keys, h]
  · intro h
    refine ⟨IngestController.get_ingest_summary
        { s with ingress_pubkey := s.ingress_pubkey + 1 },
      IngestController.get_ingest_summary
        { s with ingress_pubkey := s.ingress_pubkey + 2 }, ?_, ?_, ?_⟩
    · simp [new_keys_impl, IngestController.new_keys, h]
    · simp [new_keys_impl, IngestController.new_keys, h]
    · simp [IngestController.get_ingest_summary]

theorem new_keys_precondition_and_freshness_witness :
    (new_keys_impl (sampleState NodeState.active) =
      (Except.error RpcErrorClass.failedPrecondition, sampleState NodeState.active)) ∧
    (∃ sum1 sum2,
      (new_keys_impl (sampleState NodeState.idle)).1 = Except.ok sum1 ∧
      (new_keys_impl (new_keys_impl (sampleState NodeState.idle)).2).1 = Except.ok sum2 ∧
      sum1.ingress_pubkey ≠ sum2.ingress_pubkey) :=
  ⟨(new_keys_precondition_and_freshness (sampleState NodeState.active)).1 (by decide),
   (new_keys_precondition_and_freshness (sampleState NodeState.idle)).2 (by rfl)⟩

/-- Claim C8: every facade operation either fails with exactly one
classified error leaving the observable state unchanged, or succeeds; and
every successful call returning a summary returns precisely the
post-mutation summary an immediately following GetStatus would report. -/
theorem mutations_atomic_and_summary_consistent (op : Op) (s : ControllerState) :
    (∀ e, (applyOp op s).1 = Except.error e → (applyOp op s).2 = s) ∧
    (∀ sum, (applyOp op s).1 = Except.ok (OpResult.summary sum) →
      sum = IngestController.get_ingest_summary (applyOp op s).2) := by
  cases op with
  | getStatus => simp [applyOp, get_status_impl, Except.map]
  | newKeys =>
    simp only [applyOp, new_keys_impl]
    cases hk : IngestController.new_keys s with
    | error e => simp [Except.map]
    | ok s2 => simp [Except.map]
  | setPubkeyExpiryWindow w =>
    simp [applyOp, set_pubkey_expiry_window_impl, Except.map]
  | setPeers uris =>
    simp only [applyOp, set_peers_impl]
    cases hps : parseAllPeers uris with
    | none => simp [Except.map]
    | some ps => simp [Except.map, IngestController.set_peers]
  | activate ledger =>
    simp only [applyOp, activate_impl]
    cases ledger with
    | error e => simp [Except.map]
    | ok h =>
      cases ha : IngestController.activate s h with
      | error e => simp [ha, Except.map]
      | ok s2 => simp [ha, Except.map]
  | retire =>
    simp only [applyOp, retire_impl]
    cases hr : IngestController.retire s with
    | error e => simp [hr, Except.map]
    | ok p =>
      have hps : p.1 = IngestController.get_ingest_summary p.2 := by
        by_cases hs : s.state = NodeState.active
        · simp [IngestController.retire, hs, Prod.ext_iff] at hr
          obtain ⟨h1, h2⟩ := hr
          rw [← h1, ← h2]
        · simp [IngestController.retire, hs] at hr
      simp [hr, Except.map, hps]
  | reportMissedBlockRange a b =>
    simp only [applyOp, report_missed_block_range_impl]
    by_cases hv : (BlockRange.mk a b).is_valid <;> simp [hv, Except.map]
  | getMissedBlockRanges =>
    simp [applyOp, get_missed_block_ranges_impl, Except.map]

theorem mutations_atomic_witness :
    ((applyOp Op.retire (sampleState NodeState.idle)).2 = sampleState NodeState.idle) ∧
    (IngestController.get_ingest_summary
        { sampleState NodeState.idle with pubkey_expiry_window := 9 } =
      IngestController.get_ingest_summary
        (applyOp (Op.setPubkeyExpiryWindow 9) (sampleState NodeState.idle)).2) :=
  ⟨(mutations_atomic_and_summary_consistent Op.retire (sampleState NodeState.idle)).1
      RpcErrorClass.internalDb (by rfl),
   (mutations_atomic_and_summary_consistent (Op.setPubkeyExpiryWindow 9)
      (sampleState NodeState.idle)).2
      (IngestController.get_ingest_summary
        { sampleState NodeState.idle with pubkey_expiry_window := 9 }) (by rfl)⟩


end Fog

namespace Bip39

lemma length_natToBits (w n : Nat) : (natToBits w n).length = w := by
  induction w generalizing n with
  | zero => rfl
  | succ w ih => simp [natToBits, ih]

lemma bitsToNat_append_bit (bs : List Bool) (b : Bool) :
    bitsToNat (bs ++ [b]) = 2 * bitsToNat bs + (if b then 1 else 0) := by
  simp [bitsToNat, List.foldl_append]

lemma bitsToNat_natToBits {w n : Nat} (h : n < 2 ^ w) :
    bitsToNat (natToBits w n) = n := by
  induction w generalizing n with
  | zero =>
    simp only [natToBits, bitsToNat, List.foldl_nil]
    omega
  | succ w ih =>
    have h2 : n / 2 < 2 ^ w := by
      rw [pow_succ] at h
      omega
    rw [natToBits, bitsToNat_append_bit, ih h2]
    rcases Nat.mod_two_eq_zero_or_one n with hm | hm <;> simp [hm] <;> omega

lemma natToBits_bitsToNat : ∀ (bs : List Bool), natToBits bs.length (bitsToNat bs) = bs := by
  intro bs
  induction bs using List.reverseRecOn with
  | nil => rfl
  | append_singleton ys b ih =>
    rw [List.length_append, List.length_singleton, bitsToNat_append_bit, natToBits]
    have hdiv : (2 * bitsToNat ys + (if b then 1 else 0)) / 2 = bitsToNat ys := by
      cases b <;> simp <;> omega
    have hmod : decide ((2 * bitsToNat ys + (if b then 1 else 0)) % 2 = 1) = b := by
      cases b <;> simp <;> omega
    rw [hdiv, hmod, ih]

lemma bitsToNat_lt (bs : List Bool) : bitsToNat bs < 2 ^ bs.length := by
  induction bs using List.reverseRecOn with
  | nil => simp [bitsToNat]
  | append_singleton ys b ih =>
    rw [bitsToNat_append_bit, List.length_append, List.length_singleton, pow_succ]
    cases b <;> simp <;> omega

lemma flatten_chunks (k : Nat) :
    ∀ (n : Nat) (l : List α), l.length ≤ n → (chunks k l).flatten = l := by
  intro n
  induction n with
  | zero =>
    intro l h
    have : l = [] := List.eq_nil_of_length_eq_zero (by omega)
    simp [this, chunks]
  | succ n ih =>
    intro l h
    cases l with
    | nil => simp [chunks]
    | cons x xs =>
      rw [chunks]
      simp only [List.flatten_cons, List.cons_append]
      rw [ih (xs.drop k) (by simp [List.length_drop]; simp at h; omega)]
      rw [List.take_append_drop]

lemma chunks_flatten (k : Nat) :
    ∀ (cs : List (List α)), (∀ c ∈ cs, c.length = k + 1) →
      chunks k cs.flatten = cs := by
  intro cs
  induction cs with
  | nil => intro _; simp [chunks]
  | cons c rest ih =>
    intro hall
    have hc : c.length = k + 1 := hall c (by simp)
    cases c with
    | nil => simp at hc
    | cons y ys =>
      have hys : ys.length = k := by
        simp at hc
        omega
      simp only [List.flatten_cons, List.cons_append]
      rw [chunks]
      congr 1
      · rw [List.take_left' hys]
      · rw [List.drop_left' hys]
        exact ih (fun d hd => hall d (by simp [hd]))

lemma length_chunks (k : Nat) :
    ∀ (n : Nat) (l : List α), l.length = (k + 1) * n → (chunks k l).length = n := by
  intro n
  induction n with
  | zero =>
    intro l h
    have : l = [] := List.eq_nil_of_length_eq_zero (by omega)
    simp [this, chunks]
  | succ n ih =>
    intro l h
    cases l with
    | nil => simp at h
    | cons x xs =>
      rw [chunks]
      simp only [List.length_cons]
      rw [ih (xs.drop k) ?_]
      simp only [List.length_drop]
      simp at h
      have hxs : xs.length = (k + 1) * n + k := by
        rw [Nat.mul_succ] at h
        omega
      omega

lemma mem_chunks_length (k : Nat) :
    ∀ (n : Nat) (l : List α), l.length = (k + 1) * n →
      ∀ c ∈ chunks k l, c.length = k + 1 := by
  intro n
  induction n with
  | zero =>
    intro l h c hc
    have : l = [] := List.eq_nil_of_length_eq_zero (by omega)
    subst this
    simp [chunks] at hc
  | succ n ih =>
    intro l h c hc
    cases l with
    | nil => simp at h
    | cons x xs =>
      have hxlen : xs.length = (k + 1) * n + k := by
        simp at h
        rw [Nat.mul_succ] at h
        omega
      rw [chunks] at hc
      rcases List.mem_cons.mp hc with rfl | hc2
      · simp only [List.length_cons, List.length_take]
        rw [Nat.min_eq_left (by omega)]
      · exact ih (xs.drop k) (by simp [List.length_drop]; omega) c hc2

lemma length_bytesToBits (bs : List Nat) : (bytesToBits bs).length = 8 * bs.length := by
  induction bs with
  | nil => rfl
  | cons b tail ih =>
    simp only [bytesToBits, List.map_cons, List.flatten_cons, List.length_append,
      List.length_cons, length_natToBits]
    simp only [bytesToBits] at ih
    omega

lemma bitsToBytes_bytesToBits {bs : List Nat} (h : ∀ b ∈ bs, b < 256) :
    bitsToBytes (bytesToBits bs) = bs := by
  unfold bitsToBytes bytesToBits
  rw [chunks_flatten 7 (bs.map (natToBits 8)) ?_]
  · rw [List.map_map]
    have hcongr : ∀ b ∈ bs, (bitsToNat ∘ natToBits 8) b = b := by
      intro b hb
      exact bitsToNat_natToBits (h b hb)
    rw [List.map_congr_left hcongr]
    simp
  · intro c hc
    rcases List.mem_map.mp hc with ⟨b, _, rfl⟩
    exact length_natToBits 8 b

end Bip39

namespace Bip39

lemma wordChar_ne_space (d : Nat) : wordChar d ≠ ' ' := by
  have hm : d % 8 = 0 ∨ d % 8 = 1 ∨ d % 8 = 2 ∨ d % 8 = 3 ∨ d % 8 = 4 ∨
      d % 8 = 5 ∨ d % 8 = 6 ∨ d % 8 = 7 := by omega
  rcases hm with h | h | h | h | h | h | h | h <;>
    simp only [wordChar, h] <;> decide

lemma wordChar_eq_mod {a b : Nat} (h : wordChar a = wordChar b) : a % 8 = b % 8 := by
  simp only [wordChar] at h
  have key : ∀ x, x < 8 → ∀ y, y < 8 →
      Char.ofNat (97 + x) = Char.ofNat (97 + y) → x = y := by decide
  exact key _ (Nat.mod_lt _ (by norm_num)) _ (Nat.mod_lt _ (by norm_num)) h

lemma wordOfIndex_inj {i j : Nat} (hi : i < 2048) (hj : j < 2048)
    (h : wordOfIndex i = wordOfIndex j) : i = j := by
  simp only [wordOfIndex, List.cons.injEq, and_true] at h
  obtain ⟨h1, h2, h3, h4⟩ := h
  have e1 := wordChar_eq_mod h1
  have e2 := wordChar_eq_mod h2
  have e3 := wordChar_eq_mod h3
  have e4 := wordChar_eq_mod h4
  omega

lemma wordlist_nodup : wordlist.Nodup := by
  unfold wordlist
  refine List.Nodup.map_on ?_ (List.nodup_range 2048)
  intro x hx y hy hxy
  exact wordOfIndex_inj (List.mem_range.mp hx) (List.mem_range.mp hy) hxy

lemma wordlist_getD {i : Nat} (h : i < 2048) : wordlist.getD i [] = wordOfIndex i := by
  unfold wordlist
  rw [List.getD_eq_getElem?_getD, List.getElem?_map, List.getElem?_range h]
  rfl

lemma lookupWord_eq_index :
    ∀ (ws : List (List Char)), ws.Nodup → ∀ (i : Nat) (h : i < ws.length),
      lookupWord (ws.get ⟨i, h⟩) ws = some i := by
  intro ws
  induction ws with
  | nil =>
    intro _ i h
    simp at h
  | cons x xs ih =>
    intro hnd i h
    cases i with
    | zero => simp [lookupWord]
    | succ n =>
      have hn : n < xs.length := by
        simp at h
        omega
      have hget : (x :: xs).get ⟨n + 1, h⟩ = xs.get ⟨n, hn⟩ := rfl
      rw [hget, lookupWord]
      have hx : ¬ x = xs.get ⟨n, hn⟩ := by
        intro hcontra
        have hmem : xs.get ⟨n, hn⟩ ∈ xs := List.get_mem xs n hn
        rw [← hcontra] at hmem
        exact (List.nodup_cons.mp hnd).1 hmem
      rw [if_neg hx, ih (List.nodup_cons.mp hnd).2 n hn]
      rfl

lemma lookup_wordOfIndex {i : Nat} (h : i < 2048) :
    lookupWord (wordOfIndex i) wordlist = some i := by
  have hlen : i < wordlist.length := by
    simp [wordlist]
    omega
  have hget : wordlist.get ⟨i, hlen⟩ = wordOfIndex i := by
    simp [wordlist]
  rw [← hget]
  exact lookupWord_eq_index wordlist wordlist_nodup i hlen

lemma wordOfIndex_ne_nil (i : Nat) : wordOfIndex i ≠ [] := by
  simp [wordOfIndex]

lemma space_not_mem_wordOfIndex (i : Nat) : ' ' ∉ wordOfIndex i := by
  simp only [wordOfIndex, List.mem_cons, List.not_mem_nil, or_false]
  push_neg
  exact ⟨Ne.symm (wordChar_ne_space _), Ne.symm (wordChar_ne_space _),
    Ne.symm (wordChar_ne_space _), Ne.symm (wordChar_ne_space _)⟩

lemma takeWhile_all {p : α → Bool} :
    ∀ {l : List α}, (∀ x ∈ l, p x = true) → l.takeWhile p = l := by
  intro l h
  induction l with
  | nil => rfl
  | cons x xs ih =>
    rw [List.takeWhile_cons, if_pos (h x (by simp))]
    rw [ih (fun y hy => h y (by simp [hy]))]

lemma dropWhile_all {p : α → Bool} :
    ∀ {l : List α}, (∀ x ∈ l, p x = true) → l.dropWhile p = [] := by
  intro l h
  induction l with
  | nil => rfl
  | cons x xs ih =>
    rw [List.dropWhile_cons_of_pos (h x (by simp))]
    exact ih (fun y hy => h y (by simp [hy]))

lemma takeWhile_append_stop {p : α → Bool} {y : α} {ys : List α} :
    ∀ {xs : List α}, (∀ x ∈ xs, p x = true) → p y = false →
      (xs ++ y :: ys).takeWhile p = xs := by
  intro xs hall hy
  induction xs with
  | nil => simp [List.takeWhile_cons, hy]
  | cons x tl ih =>
    rw [List.cons_append, List.takeWhile_cons, if_pos (hall x (by simp))]
    rw [ih (fun z hz => hall z (by simp [hz]))]

lemma dropWhile_append_stop {p : α → Bool} {y : α} {ys : List α} :
    ∀ {xs : List α}, (∀ x ∈ xs, p x = true) → p y = false →
      (xs ++ y :: ys).dropWhile p = y :: ys := by
  intro xs hall hy
  induction xs with
  | nil => simp [List.dropWhile_cons, hy]
  | cons x tl ih =>
    rw [List.cons_append, List.dropWhile_cons_of_pos (hall x (by simp))]
    exact ih (fun z hz => hall z (by simp [hz]))

lemma splitWS_joinWords :
    ∀ (ws : List (List Char)), (∀ w ∈ ws, w ≠ [] ∧ ' ' ∉ w) →
      splitWS (joinWords ws) = ws := by
  intro ws
  induction ws with
  | nil =>
    intro _
    simp [joinWords, splitWS]
  | cons w rest ih =>
    intro hall
    obtain ⟨hne, hnsp⟩ := hall w (by simp)
    cases w with
    | nil => exact absurd rfl hne
    | cons c cs =>
      have hc : ¬ c = ' ' := by
        intro h
        subst h
        exact hnsp (List.mem_cons_self _ _)
      have hcs : ∀ x ∈ cs, (fun x => decide ¬(x = ' ')) x = true := by
        intro x hx
        have hxne : x ≠ ' ' := by
          intro hxe
          subst hxe
          exact hnsp (List.mem_cons_of_mem c hx)
        simpa using hxne
      cases rest with
      | nil =>
        show splitWS (c :: cs) = [c :: cs]
        rw [splitWS, if_neg hc, takeWhile_all hcs, dropWhile_all hcs]
        simp [splitWS]
      | cons w2 rest2 =>
        have hjoin : joinWords ((c :: cs) :: w2 :: rest2) =
            c :: (cs ++ ' ' :: joinWords (w2 :: rest2)) := rfl
        rw [hjoin, splitWS, if_neg hc]
        rw [takeWhile_append_stop hcs (by simp), dropWhile_append_stop hcs (by simp)]
        have hsp : splitWS (' ' :: joinWords (w2 :: rest2)) =
            splitWS (joinWords (w2 :: rest2)) := by
          rw [splitWS, if_pos rfl]
        rw [hsp, ih (fun x hx => hall x (by simp [hx]))]

end Bip39

namespace Bip39

lemma length_natToBytesBE (w n : Nat) : (natToBytesBE w n).length = w := by
  induction w generalizing n with
  | zero => rfl
  | succ w ih => simp [natToBytesBE, ih]

lemma length_sha256 (msg : List Nat) : (sha256 msg).length = 32 := by
  simp [sha256, shaDigest, length_natToBytesBE]

lemma lookupIndices_map_wordOfIndex :
    ∀ (is : List Nat), (∀ i ∈ is, i < 2048) →
      lookupIndices (is.map wordOfIndex) = some is := by
  intro is
  induction is with
  | nil => intro _; rfl
  | cons i tl ih =>
    intro h
    simp only [List.map_cons, lookupIndices]
    rw [lookup_wordOfIndex (h i (by simp)), ih (fun j hj => h j (by simp [hj]))]
    rfl

lemma entropyFromWords_eval (is : List Nat) (entBits cs : Nat)
    (h2048 : ∀ i ∈ is, i < 2048)
    (hw : typeForWordCount is.length = some (entBits, cs)) :
    entropyFromWords (is.map wordOfIndex) =
      if (bytesToBits (sha256 (bitsToBytes
            (((is.map (natToBits 11)).flatten).take entBits)))).take cs =
          ((is.map (natToBits 11)).flatten).drop entBits
      then Except.ok (bitsToBytes (((is.map (natToBits 11)).flatten).take entBits))
      else Except.error () := by
  unfold entropyFromWords
  rw [List.length_map, hw, lookupIndices_map_wordOfIndex is h2048]

lemma roundtrip_core (e : List Nat) (cs nw : Nat)
    (hcs : checksumBitsForLen e.length = some cs)
    (hcs8 : cs ≤ 8)
    (hw : typeForWordCount nw = some (8 * e.length, cs))
    (hnw : 8 * e.length + cs = 11 * nw)
    (hb : ∀ b ∈ e, b < 256) :
    ∃ ws, mnemonicWords e = some ws ∧ entropyFromWords ws = Except.ok e ∧
      (∀ w ∈ ws, w ≠ [] ∧ ' ' ∉ w) := by
  have hlenbits :
      (bytesToBits e ++ (bytesToBits (sha256 e)).take cs).length = 11 * nw := by
    rw [List.length_append, length_bytesToBits, List.length_take,
      length_bytesToBits, length_sha256]
    omega
  have hchlen := mem_chunks_length 10 nw _ hlenbits
  have hidx : ∀ c ∈ chunks 10 (bytesToBits e ++ (bytesToBits (sha256 e)).take cs),
      bitsToNat c < 2048 := by
    intro c hc
    have hlt := bitsToNat_lt c
    rw [hchlen c hc, show (2 : Nat) ^ 11 = 2048 from by norm_num] at hlt
    exact hlt
  refine ⟨(chunks 10 (bytesToBits e ++ (bytesToBits (sha256 e)).take cs)).map
      (fun c => wordlist.getD (bitsToNat c) []), ?_, ?_, ?_⟩
  · unfold mnemonicWords
    rw [hcs]
  · have hws_eq :
        (chunks 10 (bytesToBits e ++ (bytesToBits (sha256 e)).take cs)).map
            (fun c => wordlist.getD (bitsToNat c) []) =
        ((chunks 10 (bytesToBits e ++ (bytesToBits (sha256 e)).take cs)).map
            bitsToNat).map wordOfIndex := by
      rw [List.map_map]
      exact List.map_congr_left (fun c hc => wordlist_getD (hidx c hc))
    rw [hws_eq]
    have h2048 : ∀ i ∈ (chunks 10 (bytesToBits e ++
        (bytesToBits (sha256 e)).take cs)).map bitsToNat, i < 2048 := by
      intro i hi
      rcases List.mem_map.mp hi with ⟨c, hc, rfl⟩
      exact hidx c hc
    have hlen_is : ((chunks 10 (bytesToBits e ++
        (bytesToBits (sha256 e)).take cs)).map bitsToNat).length = nw := by
      rw [List.length_map]
      exact length_chunks 10 nw _ hlenbits
    rw [entropyFromWords_eval _ (8 * e.length) cs h2048 (by rw [hlen_is, hw])]
    have hflat : (((chunks 10 (bytesToBits e ++
        (bytesToBits (sha256 e)).take cs)).map bitsToNat).map
          (natToBits 11)).flatten =
        bytesToBits e ++ (bytesToBits (sha256 e)).take cs := by
      rw [List.map_map]
      have hcongr : ∀ c ∈ chunks 10 (bytesToBits e ++
          (bytesToBits (sha256 e)).take cs), (natToBits 11 ∘ bitsToNat) c = c := by
        intro c hc
        have hl : c.length = 11 := hchlen c hc
        calc (natToBits 11 ∘ bitsToNat) c
            = natToBits c.length (bitsToNat c) := by rw [hl]; rfl
          _ = c := natToBits_bitsToNat c
      rw [List.map_congr_left hcongr]
      simp only [List.map_id_fun']
      exact flatten_chunks 10 _ _ le_rfl
    rw [hflat]
    have htake : (bytesToBits e ++ (bytesToBits (sha256 e)).take cs).take
        (8 * e.length) = bytesToBits e := by
      rw [← length_bytesToBits e]
      exact List.take_left _ _
    have hdrop : (bytesToBits e ++ (bytesToBits (sha256 e)).take cs).drop
        (8 * e.length) = (bytesToBits (sha256 e)).take cs := by
      rw [← length_bytesToBits e]
      exact List.drop_left _ _
    rw [htake, hdrop, bitsToBytes_bytesToBits hb, if_pos rfl]
  · intro w hw2
    rcases List.mem_map.mp hw2 with ⟨c, hc, rfl⟩
    rw [wordlist_getD (hidx c hc)]
    exact ⟨wordOfIndex_ne_nil _, space_not_mem_wordOfIndex _⟩

end Bip39

namespace Bip39

/-- Claim C10: for every entropy buffer whose length is a multiple of 4 and
between 16 and 32 bytes inclusive, mc_bip39_entropy_to_mnemonic succeeds, and
feeding the resulting mnemonic string to mc_bip39_entropy_from_mnemonic
succeeds, returns the original entropy length and yields back exactly the
original entropy bytes. -/
theorem bip39_entropy_mnemonic_roundtrip (e : List Nat)
    (hlen : e.length % 4 = 0 ∧ 16 ≤ e.length ∧ e.length ≤ 32)
    (hb : ∀ b ∈ e, b < 256) :
    ∃ phrase, mc_bip39_entropy_to_mnemonic e = some phrase ∧
      mc_bip39_entropy_from_mnemonic phrase = Except.ok (e, e.length) := by
  have hL : e.length = 16 ∨ e.length = 20 ∨ e.length = 24 ∨ e.length = 28 ∨
      e.length = 32 := by omega
  have hcore : ∃ ws, mnemonicWords e = some ws ∧
      entropyFromWords ws = Except.ok e ∧ (∀ w ∈ ws, w ≠ [] ∧ ' ' ∉ w) := by
    rcases hL with h | h | h | h | h
    · exact roundtrip_core e 4 12 (by rw [h]; decide) (by omega) (by rw [h]; decide) (by omega) hb
    · exact roundtrip_core e 5 15 (by rw [h]; decide) (by omega) (by rw [h]; decide) (by omega) hb
    · exact roundtrip_core e 6 18 (by rw [h]; decide) (by omega) (by rw [h]; decide) (by omega) hb
    · exact roundtrip_core e 7 21 (by rw [h]; decide) (by omega) (by rw [h]; decide) (by omega) hb
    · exact roundtrip_core e 8 24 (by rw [h]; decide) (by omega) (by rw [h]; decide) (by omega) hb
  obtain ⟨ws, h1, h2, h3⟩ := hcore
  refine ⟨String.mk (joinWords ws), ?_, ?_⟩
  · simp [mc_bip39_entropy_to_mnemonic, h1]
  · unfold mc_bip39_entropy_from_mnemonic
    have hdata : (String.mk (joinWords ws)).data = joinWords ws := rfl
    rw [hdata, splitWS_joinWords ws h3, h2]

theorem bip39_entropy_mnemonic_roundtrip_witness :
    ∃ phrase,
      mc_bip39_entropy_to_mnemonic (List.replicate 16 0) = some phrase ∧
      mc_bip39_entropy_from_mnemonic phrase =
        Except.ok (List.replicate 16 0, (List.replicate 16 0).length) :=
  bip39_entropy_mnemonic_roundtrip (List.replicate 16 0) (by decide) (by decide)

end Bip39
